import Mathlib

/-!
Shallow embedding of `typhonjs-file-util` (src/src/FileUtil.js) and a
verification of its specification claims.

JavaScript strings are modelled as Lean `String`, JS arrays as `List`, the JS
numbers of `readLines` as `Int`, thrown exceptions as `Option`/`Except`, and
the Node `path`/`fs`/`process` environment as explicit function parameters
(`PathEnv`).  The archiver stack of the `FileUtil` class is modelled as an
explicit state (`FUState`); the asynchronous part of `archiveFinalize` is
represented by the list of awaited child promises together with the effect
list that its `Promise.all` continuation runs once they have all resolved.
-/

/-! ### JS string helpers -/

/-- `String.prototype.split` with a one-character separator, on character
lists: `splitChars c l` cuts `l` at every occurrence of `c`.  On `[]` it
yields `[[]]`, matching JS `"".split(c)` being `[""]`. -/
def splitChars (sep : Char) : List Char → List (List Char)
  | [] => [[]]
  | x :: xs =>
    match splitChars sep xs with
    | [] => [[x]]
    | h :: t => if x == sep then [] :: h :: t else (x :: h) :: t

/-- JS `s.split(sep)` for a one-character separator. -/
def jsSplit (sep : Char) (s : String) : List String :=
  (splitChars sep s.data).map String.mk

/-- JS `s.startsWith(t)`. -/
def jsStartsWith (s t : String) : Bool := t.data.isPrefixOf s.data

/-- JS `s.endsWith(t)`. -/
def jsEndsWith (s t : String) : Bool := t.data.isSuffixOf s.data

theorem splitChars_ne_nil (sep : Char) (l : List Char) : splitChars sep l ≠ [] := by
  cases l with
  | nil => simp [splitChars]
  | cons x xs =>
    simp only [splitChars]
    split
    · simp
    · split <;> simp

/-! ### commonPath / commonMappedPath (src/src/FileUtil.js lines 225-315) -/

/-- The segment loop of `commonPath` (lines 236-260).  `rest` holds
`folders[1..]`; the first argument of the recursion is the remaining tail of
`folders[0]` and `j` the current segment index.  In JS, comparing
`folders[i][j]` at an out-of-range index produces `undefined`, which never
equals a string segment; this (together with the `folders[i].length < j`
early break) is modelled by the `f[j]? == some thisFolder` test. -/
def commonPathGo (rest : List (List String)) : List String → Nat → String
  | [], _ => ""
  | thisFolder :: more, j =>
    if rest.all (fun f => f[j]? == some thisFolder) then
      thisFolder ++ "/" ++ commonPathGo rest more (j + 1)
    else ""

/-- `FileUtil.commonPath(...paths)` (lines 225-263).  Each path is split on
`'/'`; the common leading segments are joined, each followed by `'/'`.
With no paths at all, line 236 evaluates `folders[0].length` on `undefined`
and the call throws a `TypeError`; this is modelled by `none`. -/
def commonPath (paths : List String) : Option String :=
  match paths.map (jsSplit '/') with
  | [] => none
  | f0 :: rest => some (commonPathGo rest f0 0)

/-- A JS property value as far as `commonMappedPath` inspects it: either a
string or anything else. -/
inductive JSVal where
  | str (s : String)
  | other
deriving DecidableEq

/-- A JS object, modelled as an association list of properties. -/
abbrev JSRecord := List (String × JSVal)

/-- `objects[i][key]` when it is a string, else `none`
(the `typeof objects[i][key] === 'string'` test on line 282). -/
def getStrProp (r : JSRecord) (key : String) : Option String :=
  match r.find? (fun kv => kv.1 == key) with
  | some (_, .str s) => some s
  | _ => none

/-- The folder-collection loop of `commonMappedPath` (lines 280-286): keep, in
order, the split of each record's value at `key` that is a string. -/
def collectFolders (key : String) : List JSRecord → List (List String)
  | [] => []
  | o :: os =>
    match getStrProp o key with
    | some s => jsSplit '/' s :: collectFolders key os
    | none => collectFolders key os

/-- `FileUtil.commonMappedPath(key, ...objects)` (lines 274-315).  The segment
loop on lines 288-312 is character-for-character the loop of `commonPath`
(lines 236-260), so both translations share `commonPathGo`.  As in
`commonPath`, an empty collected folder list makes line 288 throw
(`folders[0]` is `undefined`), modelled by `none`. -/
def commonMappedPath (key : String) (objects : List JSRecord) : Option String :=
  match collectFolders key objects with
  | [] => none
  | f0 :: rest => some (commonPathGo rest f0 0)

/-! Spec-side reference definitions for the common-path claims
("longest common prefix of path segments shared by every input, joined with a
trailing separator"). -/

/-- Longest common segment-list prefix of two paths (textbook definition). -/
def lcp2 : List String → List String → List String
  | [], _ => []
  | _, [] => []
  | a :: as, b :: bs => if a = b then a :: lcp2 as bs else []

/-- Join segments, each followed by `"/"`. -/
def joinSegs : List String → String
  | [] => ""
  | s :: t => s ++ "/" ++ joinSegs t

/-- Modelled from the spec: split every path on `/`, take the longest common
prefix of segments shared by every input, join it with a trailing `/`; the
empty string when there are no inputs or no common segment. -/
def specCommonPath (paths : List String) : String :=
  match paths.map (jsSplit '/') with
  | [] => ""
  | f0 :: rest => joinSegs (rest.foldl lcp2 f0)

/-- Simultaneous longest common prefix: peel one common head segment at a time
from the first path and all the others. -/
def simLcp : List String → List (List String) → List String
  | [], _ => []
  | seg :: more, rests =>
    if rests.all (fun r => r.head? == some seg) then
      seg :: simLcp more (rests.map (List.drop 1))
    else []

theorem commonPathGo_eq_simLcp (f0 : List String) (rest : List (List String)) (j : Nat) :
    commonPathGo rest f0 j = joinSegs (simLcp f0 (rest.map (List.drop j))) := by
  induction f0 generalizing j with
  | nil => simp [commonPathGo, simLcp, joinSegs]
  | cons seg more ih =>
    have hcond : ((rest.map (List.drop j)).all fun r => r.head? == some seg)
        = (rest.all fun f => f[j]? == some seg) := by
      simp [List.all_map, Function.comp_def, List.head?_drop]
    have hmaps : (rest.map (List.drop j)).map (List.drop 1) = rest.map (List.drop (j + 1)) := by
      simp [List.map_map, Function.comp_def, List.drop_drop]
    simp only [commonPathGo, simLcp, hcond, hmaps]
    split
    · simp only [joinSegs]
      rw [ih (j + 1)]
    · rfl

theorem simLcp_cons (f0 r : List String) (rests : List (List String)) :
    simLcp f0 (r :: rests) = simLcp (lcp2 f0 r) rests := by
  induction f0 generalizing r rests with
  | nil => simp [simLcp, lcp2]
  | cons seg more ih =>
    cases r with
    | nil =>
      have h1 : lcp2 (seg :: more) [] = [] := rfl
      have h2 : simLcp (seg :: more) ([] :: rests) = [] := by
        simp [simLcp, List.all_cons]
      rw [h1, h2]
      rfl
    | cons b rs =>
      by_cases hseg : seg = b
      · subst hseg
        simp only [simLcp, lcp2, if_pos rfl, List.all_cons, List.head?_cons, List.map_cons]
        by_cases hall : rests.all (fun r => r.head? == some seg)
        · simp only [hall, beq_self_eq_true, Bool.true_and, if_pos, List.drop_one]
          rw [ih]
          simp [List.drop_one]
        · simp [hall]
      · have hbs : (some b == some seg) = false := by
          have hne : ¬ b = seg := fun h => hseg h.symm
          simp [hne]
        simp [simLcp, lcp2, List.all_cons, List.head?_cons, hbs, hseg]

theorem simLcp_nil_rests (f0 : List String) : simLcp f0 [] = f0 := by
  induction f0 with
  | nil => simp [simLcp]
  | cons seg more ih => simp [simLcp, ih]

theorem simLcp_eq_foldl (f0 : List String) (rests : List (List String)) :
    simLcp f0 rests = rests.foldl lcp2 f0 := by
  induction rests generalizing f0 with
  | nil => simp [simLcp_nil_rests]
  | cons r rs ih => rw [simLcp_cons, List.foldl_cons, ih]

theorem commonPathGo_zero (f0 : List String) (rest : List (List String)) :
    commonPathGo rest f0 0 = joinSegs (simLcp f0 rest) := by
  have h := commonPathGo_eq_simLcp f0 rest 0
  have hdz : List.map (List.drop 0) rest = rest := by
    have hid : (List.drop (α := String) 0) = id := funext List.drop_zero
    rw [hid, List.map_id]
  rwa [hdz] at h

/-- C4 (counterexample): called with no paths at all, `commonPath` does not
return the empty string; line 236 reads `.length` of `undefined` and the call
throws a `TypeError` (modelled by `none`). -/
theorem commonPath_nil_throws : commonPath [] = none ∧ commonPath [] ≠ some "" :=
  ⟨rfl, by decide⟩

/-- C4 (amended): for every NON-EMPTY sequence of path strings, `commonPath`
splits each path on `'/'`, computes the longest common prefix of segments
shared by every input, and returns those common segments joined with a
trailing `'/'` (the empty string when there is no common leading segment).
On an empty input sequence the function instead throws a `TypeError`. -/
theorem commonPath_eq_spec (paths : List String) (h : paths ≠ []) :
    commonPath paths = some (specCommonPath paths) := by
  cases paths with
  | nil => exact absurd rfl h
  | cons p ps =>
    simp only [commonPath, specCommonPath, List.map_cons]
    rw [commonPathGo_zero, simLcp_eq_foldl]

/-- Witness for `commonPath_eq_spec` at a concrete input. -/
theorem commonPath_eq_spec_witness :
    commonPath ["/a/b/c/x.js", "/a/b/d/y.js"] = some (specCommonPath ["/a/b/c/x.js", "/a/b/d/y.js"])
      ∧ specCommonPath ["/a/b/c/x.js", "/a/b/d/y.js"] = "/a/b/" := by
  refine ⟨commonPath_eq_spec _ (by simp), by decide⟩

theorem collectFolders_eq_filterMap (key : String) (os : List JSRecord) :
    collectFolders key os = (os.filterMap (fun o => getStrProp o key)).map (jsSplit '/') := by
  induction os with
  | nil => rfl
  | cons o os ih =>
    simp only [collectFolders, List.filterMap_cons]
    cases h : getStrProp o key with
    | none => simpa [h] using ih
    | some s => simp [h, ih]

/-- C8: `commonMappedPath(key, objects)` returns exactly what `commonPath`
returns on the in-order list of those records' values at `key` that are
strings; records missing the key or holding a non-string there are skipped
and have no effect (including on the empty-collection throwing behaviour). -/
theorem commonMappedPath_eq_commonPath (key : String) (objects : List JSRecord) :
    commonMappedPath key objects = commonPath (objects.filterMap (fun o => getStrProp o key)) := by
  simp only [commonMappedPath, commonPath, collectFolders_eq_filterMap]

/-- Concatenate character-list segments, a `'/'` after each one. -/
def joinData : List (List Char) → List Char
  | [] => []
  | h :: t => h ++ '/' :: joinData t

theorem joinData_splitChars (l : List Char) : joinData (splitChars '/' l) = l ++ ['/'] := by
  induction l with
  | nil => rfl
  | cons x xs ih =>
    simp only [splitChars]
    rcases hs : splitChars '/' xs with _ | ⟨h, t⟩
    · exact absurd hs (splitChars_ne_nil '/' xs)
    · rw [hs] at ih
      by_cases hx : x = '/'
      · subst hx
        simp only [beq_self_eq_true, if_pos, joinData]
        simpa using ih
      · have hxb : (x == '/') = false := by simp [hx]
        simp only [hxb, Bool.false_eq_true, if_neg, joinData]
        simp only [joinData] at ih
        simp [ih]

theorem joinSegs_map_mk (parts : List (List Char)) :
    joinSegs (parts.map String.mk) = String.mk (joinData parts) := by
  induction parts with
  | nil => rfl
  | cons h t ih =>
    simp only [List.map_cons, joinSegs, joinData, ih]
    apply String.ext
    simp [String.data_append]

theorem commonPathGo_nil_rest (f0 : List String) (j : Nat) :
    commonPathGo [] f0 j = joinSegs f0 := by
  induction f0 generalizing j with
  | nil => rfl
  | cons seg more ih => simp [commonPathGo, joinSegs, ih]

/-- C10: for a single path string `p`, `commonPath` returns the whole of `p`
— every `'/'`-separated segment including the final (file-name) segment —
joined back with `'/'` and followed by a trailing `'/'`; that is, `p ++ "/"`.
E.g. `commonPath("/a/b/x.js")` is `"/a/b/x.js/"`, not `"/a/b/"`. -/
theorem commonPath_single (p : String) : commonPath [p] = some (p ++ "/") := by
  simp only [commonPath, List.map_cons, List.map_nil, commonPathGo_nil_rest]
  have h1 : joinSegs (jsSplit '/' p) = String.mk (joinData (splitChars '/' p.data)) :=
    joinSegs_map_mk (splitChars '/' p.data)
  rw [jsSplit] at h1 ⊢
  rw [h1, joinData_splitChars]
  rfl

/-! ### readLines (src/src/FileUtil.js lines 497-515) -/

/-- One pushed entry of the `readLines` loop (line 511): the 1-based line
number, `"| "`, then `lines[cntr]`.  Inside the loop the index is always in
range (see `readLines`); the `getD` default stands for the otherwise
unreachable JS `undefined`. -/
def lineEntry (lines : List String) (cntr : Int) : String :=
  toString (cntr + 1) ++ "| " ++ lines.getD cntr.toNat ""

/-- The `for` loop of `readLines` (lines 509-512).  The loop runs
`(lineEnd - cntr)` times; that count is passed as structural fuel, while the
`cntr < lineEnd` guard of the JS loop is kept verbatim. -/
def readLinesLoop (lines : List String) (cntr lineEnd : Int) : Nat → List String
  | 0 => []
  | fuel + 1 =>
    if cntr < lineEnd then
      lineEntry lines cntr :: readLinesLoop lines (cntr + 1) lineEnd fuel
    else []

/-- `FileUtil.readLines(filePath, lineStart, lineEnd)` (lines 497-515), with
the file contents passed in place of the `fs.readFileSync` call: split the
contents on `'\n'`, clamp `lineStart` below by `0` (line 506) and `lineEnd`
above by the line count (line 507), then collect one numbered entry per line
index in `[lineStart, lineEnd)`. -/
def readLines (contents : String) (lineStart lineEnd : Int) : List String :=
  let lineStart' := if lineStart < 0 then 0 else lineStart
  let lineEnd' := if lineEnd > ((jsSplit '\n' contents).length : Int)
    then ((jsSplit '\n' contents).length : Int) else lineEnd
  readLinesLoop (jsSplit '\n' contents) lineStart' lineEnd' (lineEnd' - lineStart').toNat

theorem readLinesLoop_length (lines : List String) :
    ∀ (n : Nat) (c e : Int), (e - c).toNat = n → (readLinesLoop lines c e n).length = n := by
  intro n
  induction n with
  | zero =>
    intro c e h
    rfl
  | succ k ih =>
    intro c e h
    have hce : c < e := by omega
    simp [readLinesLoop, hce, ih (c + 1) e (by omega)]

theorem readLinesLoop_getElem (lines : List String) :
    ∀ (n : Nat) (c e : Int), (e - c).toNat = n →
      ∀ i : Nat, i < n → (readLinesLoop lines c e n)[i]? = some (lineEntry lines (c + i)) := by
  intro n
  induction n with
  | zero =>
    intro c e h i hi
    omega
  | succ k ih =>
    intro c e h i hi
    have hce : c < e := by omega
    simp only [readLinesLoop, if_pos hce]
    cases i with
    | zero => simp
    | succ j =>
      have hrec := ih (c + 1) e (by omega) j (by omega)
      have harg : c + 1 + (j : Int) = c + ((j + 1 : Nat) : Int) := by push_cast; ring
      rw [List.getElem?_cons_succ, hrec, harg]

/-- C7: with `a' = max(a, 0)` and `b' = min(b, lineCount)`, `readLines`
returns one entry per line index in `[a', b')` — hence between `0` and
`lineCount` entries inclusive — and the entry at offset `i` is the string
`"<a'+i+1>| "` followed by the text of line `a' + i` (0-based). -/
theorem readLines_spec (contents : String) (a b : Int) :
    (readLines contents a b).length
      = (min b ((jsSplit '\n' contents).length : Int) - max a 0).toNat
    ∧ (readLines contents a b).length ≤ (jsSplit '\n' contents).length
    ∧ ∀ i : Nat, i < (readLines contents a b).length →
        (readLines contents a b)[i]? =
          some (toString (max a 0 + (i : Int) + 1) ++ "| "
            ++ (jsSplit '\n' contents).getD (max a 0 + (i : Int)).toNat "") := by
  have hstart : (if a < 0 then (0 : Int) else a) = max a 0 := by
    split <;> omega
  have hend : (if b > ((jsSplit '\n' contents).length : Int)
      then ((jsSplit '\n' contents).length : Int) else b)
      = min b ((jsSplit '\n' contents).length : Int) := by
    split <;> omega
  have hunfold : readLines contents a b
      = readLinesLoop (jsSplit '\n' contents) (max a 0)
          (min b ((jsSplit '\n' contents).length : Int))
          ((min b ((jsSplit '\n' contents).length : Int) - max a 0).toNat) := by
    simp only [readLines]
    rw [hstart, hend]
  have hlen : (readLines contents a b).length
      = (min b ((jsSplit '\n' contents).length : Int) - max a 0).toNat := by
    rw [hunfold]
    exact readLinesLoop_length _ _ (max a 0) _ rfl
  refine ⟨hlen, by omega, ?_⟩
  intro i hi
  have hi' : i < (min b ((jsSplit '\n' contents).length : Int) - max a 0).toNat := by
    omega
  have h := readLinesLoop_getElem (jsSplit '\n' contents) _ (max a 0)
    (min b ((jsSplit '\n' contents).length : Int)) rfl i hi'
  rw [hunfold, h]
  rfl

/-- Witness for `readLines_spec` at a concrete input. -/
theorem readLines_spec_witness :
    (readLines "a\nb\nc" (-5) 10).length = 3
    ∧ (readLines "a\nb\nc" 1 2)[0]? = some "2| b" := by
  constructor
  · have h := (readLines_spec "a\nb\nc" (-5) 10).1
    rw [h]
    decide
  · have h := (readLines_spec "a\nb\nc" 1 2).2.2 0 (by decide)
    rw [h]
    decide

/-! ### hydrateGlob (src/src/FileUtil.js lines 382-427) -/

/-- The argument of `hydrateGlob` as far as its validation inspects it:
a string, an array of JS values, or anything else. -/
inductive GlobsInput where
  | str (s : String)
  | arr (elems : List JSVal)
  | other
deriving DecidableEq

/-- Lines 384-390: reject an argument that is neither an array nor a string,
and wrap a string argument into a one-element array. -/
def globArrayOf : GlobsInput → Option (List JSVal)
  | .str s => some [JSVal.str s]
  | .arr es => some es
  | .other => none

/-- Lines 393-399: every array entry must be a string; the first non-string
entry throws a `TypeError` (`cntr` tracks the JS loop index for the
message). -/
def checkStrings (cntr : Nat) : List JSVal → Except String (List String)
  | [] => Except.ok []
  | JSVal.str s :: rest => (checkStrings (cntr + 1) rest).map (fun l => s :: l)
  | JSVal.other :: _ => Except.error ("globs[" ++ Nat.repr cntr ++ "] is not a string")

/-- The synchronous validation prelude of `hydrateGlob` (lines 384-399),
which runs before any glob expansion; thrown `TypeError`s are modelled as
`Except.error`. -/
def hydrateGlobValidate (globs : GlobsInput) : Except String (List String) :=
  match globArrayOf globs with
  | none => Except.error "globs is not a string or an array"
  | some ga => checkStrings 0 ga

/-- Lines 404-421, the per-entry rewrite: an entry that is not a glob (a bare
path) is turned into an all-inclusive recursive glob.  The trailing-separator
regex `/([\\/])$/` is modelled by inspecting the last character; `path.sep`
is the posix `"/"`. -/
def hydrateEntry (isGlob : String → Bool) (entry : String) : String :=
  if isGlob entry then entry
  else
    let pathSep : String :=
      match entry.data.getLast? with
      | none => "/"
      | some c => if c = '/' then "/" else if c = '\\' then "\\" else "/"
    if jsEndsWith entry pathSep then entry ++ "**" ++ pathSep ++ "*"
    else entry ++ pathSep ++ "**" ++ pathSep ++ "*"

/-- `FileUtil.hydrateGlob(globs)` (lines 382-427).  The filesystem is
abstracted by `expand` (`glob.sync` composed with `path.resolve`, line 420)
and `isFile` (`fs.statSync(file).isFile()`, line 424).  Returns the matched
files together with the list of effective globs actually used. -/
def hydrateGlob (isGlob : String → Bool) (expand : String → List String)
    (isFile : String → Bool) (globs : GlobsInput) :
    Except String (List String × List String) :=
  match hydrateGlobValidate globs with
  | Except.error e => Except.error e
  | Except.ok globArray =>
    let actualGlobs := globArray.map (hydrateEntry isGlob)
    let files := (actualGlobs.map expand).flatten
    Except.ok (files.filter isFile, actualGlobs)

/-- Whether an `Except` is a success. -/
def exceptOk {ε α : Type} : Except ε α → Bool
  | Except.ok _ => true
  | Except.error _ => false

/-- Modelled from the spec: a `hydrateGlob` input is valid when it is a
string, or an array whose entries are all strings. -/
def specValidGlobs : GlobsInput → Bool
  | .str _ => true
  | .arr es => es.all (fun e => match e with | .str _ => true | .other => false)
  | .other => false

theorem checkStrings_exceptOk (es : List JSVal) : ∀ cntr : Nat,
    exceptOk (checkStrings cntr es)
      = es.all (fun e => match e with | .str _ => true | .other => false) := by
  induction es with
  | nil => intro _; rfl
  | cons e rest ih =>
    intro cntr
    cases e with
    | str s =>
      simp only [checkStrings, List.all_cons]
      cases h : checkStrings (cntr + 1) rest with
      | ok l =>
        have hr := ih (cntr + 1)
        rw [h] at hr
        simp [Except.map, exceptOk, ← hr]
      | error e' =>
        have hr := ih (cntr + 1)
        rw [h] at hr
        simp [Except.map, exceptOk, ← hr]
    | other => simp [checkStrings, List.all_cons, exceptOk]

theorem hydrateGlobValidate_exceptOk (globs : GlobsInput) :
    exceptOk (hydrateGlobValidate globs) = specValidGlobs globs := by
  cases globs with
  | str s => rfl
  | arr es => exact checkStrings_exceptOk es 0
  | other => rfl

/-- C9: `hydrateGlob` throws a synchronous `TypeError` exactly when its input
is neither a string nor an array, or is an array containing a non-string
element; for every valid input the validation passes.  The error is raised
before any filesystem expansion: on invalid input the result does not depend
on the glob-expansion environment at all. -/
theorem hydrateGlob_validation (globs : GlobsInput) (isGlob : String → Bool)
    (expand : String → List String) (isFile : String → Bool) :
    exceptOk (hydrateGlob isGlob expand isFile globs) = specValidGlobs globs
    ∧ (specValidGlobs globs = false →
        ∀ (isGlob' : String → Bool) (expand' : String → List String)
          (isFile' : String → Bool),
          hydrateGlob isGlob expand isFile globs
            = hydrateGlob isGlob' expand' isFile' globs) := by
  have hva := hydrateGlobValidate_exceptOk globs
  constructor
  · rw [← hva]
    cases h : hydrateGlobValidate globs with
    | ok ga => simp [hydrateGlob, h, exceptOk]
    | error e => simp [hydrateGlob, h, exceptOk]
  · intro hinvalid isGlob' expand' isFile'
    rw [← hva] at hinvalid
    cases h : hydrateGlobValidate globs with
    | ok ga => rw [h] at hinvalid; simp [exceptOk] at hinvalid
    | error e => simp [hydrateGlob, h]

theorem jsEndsWith_slash_of_getLast (s : String) (h : jsEndsWith s "/" = true) :
    s.data.getLast? = some '/' := by
  have hsuf : "/".data <:+ s.data := by
    rw [← List.isSuffixOf_iff_suffix]
    exact h
  obtain ⟨t, ht⟩ := hsuf
  rw [← ht]
  exact List.getLast?_concat t

theorem jsEndsWith_append_slash (p : String) : jsEndsWith (p ++ "/") "/" = true := by
  rw [jsEndsWith, List.isSuffixOf_iff_suffix, String.data_append]
  exact List.suffix_append p.data "/".data

theorem strGlobAppend (p : String) : p ++ "/" ++ "**" ++ "/" ++ "*" = p ++ "/**/*" := by
  apply String.ext
  simp only [String.data_append, List.append_assoc]
  congr 1

theorem strGlobAppendSlash (p : String) : (p ++ "/") ++ "**" ++ "/" ++ "*" = p ++ "/**/*" := by
  apply String.ext
  simp only [String.data_append, List.append_assoc]
  congr 1

theorem hydrateEntry_bare (isGlob : String → Bool) (p : String)
    (hp : isGlob p = false) (h1 : p.data.getLast? ≠ some '/')
    (h2 : p.data.getLast? ≠ some '\\') :
    hydrateEntry isGlob p = p ++ "/**/*" := by
  have hends : jsEndsWith p "/" = false := by
    cases hjs : jsEndsWith p "/" with
    | false => rfl
    | true => exact absurd (jsEndsWith_slash_of_getLast p hjs) h1
  rw [← strGlobAppend]
  rcases hlp : p.data.getLast? with _ | c
  · simp [hydrateEntry, hp, hlp, hends]
  · have hc1 : ¬ c = '/' := fun hh => h1 (by rw [hlp, hh])
    have hc2 : ¬ c = '\\' := fun hh => h2 (by rw [hlp, hh])
    simp [hydrateEntry, hp, hlp, hc1, hc2, hends]

theorem hydrateEntry_bare_slash (isGlob : String → Bool) (p : String)
    (hp' : isGlob (p ++ "/") = false) :
    hydrateEntry isGlob (p ++ "/") = p ++ "/**/*" := by
  have hlast : (p ++ "/").data.getLast? = some '/' := by
    rw [String.data_append]
    exact List.getLast?_concat p.data
  have hends := jsEndsWith_append_slash p
  rw [← strGlobAppendSlash]
  simp [hydrateEntry, hp', hlast, hends]

/-- C6 (counterexample): the bare directory path `p = "a/"` (which contains
no glob wildcard characters, so `is-glob` classifies it and `p ++ "/"` as
non-globs) refutes the claim: `hydrateGlob("a/")` yields the effective glob
`"a/**/*"` while `hydrateGlob("a/" ++ "/")` yields `"a//**/*"` — not the
same entry. -/
theorem hydrateGlob_bare_dir_counterexample :
    hydrateGlob (fun _ => false) (fun _ => []) (fun _ => false) (GlobsInput.str "a/")
      = Except.ok ([], ["a/**/*"])
    ∧ hydrateGlob (fun _ => false) (fun _ => []) (fun _ => false) (GlobsInput.str ("a/" ++ "/"))
      = Except.ok ([], ["a//**/*"])
    ∧ ("a/**/*" : String) ≠ "a//**/*" := by
  refine ⟨rfl, rfl, by decide⟩

/-- C6 (amended): for every bare directory path `p` (no glob wildcard
syntax, for `p` as well as `p ++ "/"`) that does not already end in a path
separator (`'/'` or `'\'`), `hydrateGlob(p)` and `hydrateGlob(p ++ "/")`
produce the same single effective glob entry `p ++ "/**/*"` — `p`, exactly
one trailing separator, and the recursive all-files pattern — and hence the
same result altogether.  (When `p` itself already ends in a separator the
two calls differ, see the counterexample.) -/
theorem hydrateGlob_bare_dir (isGlob : String → Bool) (expand : String → List String)
    (isFile : String → Bool) (p : String)
    (hp : isGlob p = false) (hp' : isGlob (p ++ "/") = false)
    (h1 : p.data.getLast? ≠ some '/') (h2 : p.data.getLast? ≠ some '\\') :
    hydrateGlob isGlob expand isFile (GlobsInput.str p)
      = Except.ok ((expand (p ++ "/**/*")).filter isFile, [p ++ "/**/*"])
    ∧ hydrateGlob isGlob expand isFile (GlobsInput.str (p ++ "/"))
      = Except.ok ((expand (p ++ "/**/*")).filter isFile, [p ++ "/**/*"]) := by
  have he1 := hydrateEntry_bare isGlob p hp h1 h2
  have he2 := hydrateEntry_bare_slash isGlob p hp'
  constructor
  · simp [hydrateGlob, hydrateGlobValidate, globArrayOf, checkStrings, Except.map, he1]
  · simp [hydrateGlob, hydrateGlobValidate, globArrayOf, checkStrings, Except.map, he2]

/-- Witness for `hydrateGlob_bare_dir` at a concrete input. -/
theorem hydrateGlob_bare_dir_witness :
    hydrateGlob (fun _ => false) (fun g => [g]) (fun _ => true) (GlobsInput.str "pkg")
      = Except.ok (["pkg/**/*"], ["pkg/**/*"])
    ∧ hydrateGlob (fun _ => false) (fun g => [g]) (fun _ => true) (GlobsInput.str ("pkg" ++ "/"))
      = Except.ok (["pkg/**/*"], ["pkg/**/*"]) := by
  have h := hydrateGlob_bare_dir (fun _ => false) (fun g => [g]) (fun _ => true) "pkg"
    rfl rfl (by decide) (by decide)
  exact h

/-! ### FileUtil options and the Node environment -/

/-- The `_options` of a `FileUtil` instance (constructor, lines 26-33).  The
`eventbus` reference is an external object and is not modelled; `s_LOG`
messages are reported as explicit log strings where a claim needs them. -/
structure FUOptions where
  compressFormat : String
  lockRelative : Bool
  logEvent : String
  relativePath : Option String
deriving DecidableEq

/-- The Node `path`/`process` environment used by `FileUtil`, passed
explicitly: `path.resolve` (one- and two-argument forms), `path.dirname`,
`path.sep` and `process.cwd()`. -/
structure PathEnv where
  resolve1 : String → String
  resolve2 : String → String → String
  dirname : String → String
  sep : String
  cwd : String

/-! ### emptyRelativePath (src/src/FileUtil.js lines 194-216) -/

/-- Observable outcome of `emptyRelativePath`: no configured relative path
(log only), refusal because the guard fired (log only, nothing deleted), or
`fs.emptyDirSync` on the resolved path. -/
inductive EmptyRelResult where
  | noRelativePath
  | abortedCwd
  | emptied (resolvedPath : String)
deriving DecidableEq

/-- `FileUtil.emptyRelativePath()` (lines 194-216): when a `relativePath`
option is set, resolve it and — unless `process.cwd().startsWith(resolvedPath)`
(line 201) — empty that directory; when the guard fires, only an abort
message is logged and nothing is deleted. -/
def emptyRelativePath (env : PathEnv) (opts : FUOptions) : EmptyRelResult :=
  match opts.relativePath with
  | none => EmptyRelResult.noRelativePath
  | some rp =>
    let resolvedPath := env.resolve1 rp
    if jsStartsWith env.cwd resolvedPath then EmptyRelResult.abortedCwd
    else EmptyRelResult.emptied (env.resolve1 rp)

/-- Modelled from the spec: `dir` is an ancestor of, or equal to, `target`
(as directory paths: equal, or `target` lies strictly below `dir`). -/
def isAncestorOrEqualOf (dir target : String) : Bool :=
  dir == target || jsStartsWith target (dir ++ "/")

/-- C5 (counterexample): with the current working directory `/home/foobar`
and `relativePath` resolving to `/home/foo` (an absolute, already-normalized
path, so `path.resolve` is the identity on it), the guard fires — the
operation is refused — even though `/home/foo` is NOT an ancestor of (nor
equal to) the working directory: the refusal condition is a plain string
prefix test, not an ancestor test. -/
theorem emptyRelativePath_counterexample :
    emptyRelativePath
      { resolve1 := fun s => s, resolve2 := fun _ p => p, dirname := fun s => s,
        sep := "/", cwd := "/home/foobar" }
      { compressFormat := "tar.gz", lockRelative := false, logEvent := "log:debug",
        relativePath := some "/home/foo" }
      = EmptyRelResult.abortedCwd
    ∧ isAncestorOrEqualOf "/home/foo" "/home/foobar" = false := by
  refine ⟨rfl, by decide⟩

/-- C5 (amended): when a `relativePath` is set, `emptyRelativePath` refuses
(deleting nothing, only logging) exactly when the resolved path is a string
prefix of the current working directory.  Every configuration in which the
resolved path is an ancestor of, or equal to, the working directory is such
a prefix and is therefore refused; but some non-ancestor configurations
(resolved paths that are string prefixes without a separator boundary, such
as `/home/foo` against cwd `/home/foobar`) are refused as well, so the
"exactly when an ancestor" reading of the guard is false. -/
theorem emptyRelativePath_guard (env : PathEnv) (opts : FUOptions) (rp : String)
    (h : opts.relativePath = some rp) :
    (emptyRelativePath env opts = EmptyRelResult.abortedCwd
      ↔ jsStartsWith env.cwd (env.resolve1 rp) = true)
    ∧ (isAncestorOrEqualOf (env.resolve1 rp) env.cwd = true →
        emptyRelativePath env opts = EmptyRelResult.abortedCwd)
    ∧ (jsStartsWith env.cwd (env.resolve1 rp) = false →
        emptyRelativePath env opts = EmptyRelResult.emptied (env.resolve1 rp)) := by
  have hanc : isAncestorOrEqualOf (env.resolve1 rp) env.cwd = true →
      jsStartsWith env.cwd (env.resolve1 rp) = true := by
    intro hiso
    rw [isAncestorOrEqualOf, Bool.or_eq_true] at hiso
    rcases hiso with heq | hbelow
    · have : env.resolve1 rp = env.cwd := by
        exact eq_of_beq heq
      rw [jsStartsWith, this, List.isPrefixOf_iff_prefix]
    · rw [jsStartsWith, List.isPrefixOf_iff_prefix]
      rw [jsStartsWith, List.isPrefixOf_iff_prefix] at hbelow
      have hstep : (env.resolve1 rp).data <+: (env.resolve1 rp ++ "/").data := by
        rw [String.data_append]
        exact List.prefix_append _ _
      exact hstep.trans hbelow
  refine ⟨?_, ?_, ?_⟩
  · constructor
    · intro habort
      by_contra hns
      have hns' : jsStartsWith env.cwd (env.resolve1 rp) = false := by
        cases hx : jsStartsWith env.cwd (env.resolve1 rp) with
        | false => rfl
        | true => exact absurd hx hns
      simp [emptyRelativePath, h, hns'] at habort
    · intro hsw
      simp [emptyRelativePath, h, hsw]
  · intro hiso
    simp [emptyRelativePath, h, hanc hiso]
  · intro hsw
    simp [emptyRelativePath, h, hsw]

/-- Witness for `emptyRelativePath_guard` at a concrete input. -/
theorem emptyRelativePath_guard_witness :
    emptyRelativePath
      { resolve1 := fun s => s, resolve2 := fun _ p => p, dirname := fun s => s,
        sep := "/", cwd := "/home/user/proj" }
      { compressFormat := "tar.gz", lockRelative := false, logEvent := "log:debug",
        relativePath := some "/home/user" }
      = EmptyRelResult.abortedCwd := by
  have h := (emptyRelativePath_guard
    { resolve1 := fun s => s, resolve2 := fun _ p => p, dirname := fun s => s,
      sep := "/", cwd := "/home/user/proj" }
    { compressFormat := "tar.gz", lockRelative := false, logEvent := "log:debug",
      relativePath := some "/home/user" }
    "/home/user" rfl).2.1
  exact h (by decide)

/-! ### Decimal numerals (for the `.temp-<counter>` naming of archiveCreate) -/

/-- Reference most-significant-first decimal digit list of a `Nat`. -/
def digitsOf (n : Nat) : List Char :=
  if h : n < 10 then [Nat.digitChar n]
  else digitsOf (n / 10) ++ [Nat.digitChar (n % 10)]
termination_by n
decreasing_by
  exact Nat.div_lt_self (by omega) (by omega)

theorem digitChar_isDigit {k : Nat} (h : k < 10) : (Nat.digitChar k).isDigit = true := by
  interval_cases k <;> decide

/-- Decimal value of a digit character. -/
def charVal (c : Char) : Nat := c.toNat - '0'.toNat

theorem charVal_digitChar {k : Nat} (h : k < 10) : charVal (Nat.digitChar k) = k := by
  interval_cases k <;> decide

theorem digitsOf_all_digit : ∀ n : Nat, ∀ c ∈ digitsOf n, c.isDigit = true := by
  intro n
  induction n using Nat.strong_induction_on with
  | _ n ih =>
    intro c hc
    rw [digitsOf] at hc
    split at hc
    · rename_i h
      simp only [List.mem_singleton] at hc
      subst hc
      exact digitChar_isDigit h
    · rename_i h
      rcases List.mem_append.mp hc with h1 | h2
      · exact ih (n / 10) (Nat.div_lt_self (by omega) (by omega)) c h1
      · simp only [List.mem_singleton] at h2
        subst h2
        exact digitChar_isDigit (Nat.mod_lt _ (by omega))

theorem digitsOf_ne_nil (n : Nat) : digitsOf n ≠ [] := by
  rw [digitsOf]
  split <;> simp

/-- Decimal value of a most-significant-first digit list. -/
def valOf (l : List Char) : Nat := l.foldl (fun a c => 10 * a + charVal c) 0

theorem valOf_digitsOf : ∀ n : Nat, valOf (digitsOf n) = n := by
  intro n
  induction n using Nat.strong_induction_on with
  | _ n ih =>
    rw [digitsOf]
    split
    · rename_i h
      simp [valOf, charVal_digitChar h]
    · rename_i h
      have hih := ih (n / 10) (Nat.div_lt_self (by omega) (by omega))
      rw [valOf, List.foldl_append]
      simp only [List.foldl_cons, List.foldl_nil]
      rw [show List.foldl (fun a c => 10 * a + charVal c) 0 (digitsOf (n / 10))
          = valOf (digitsOf (n / 10)) from rfl]
      rw [hih, charVal_digitChar (Nat.mod_lt _ (by omega))]
      omega

theorem toDigitsCore_eq_digitsOf : ∀ fuel : Nat, 0 < fuel → ∀ (n : Nat) (ds : List Char),
    n < 10 ^ fuel → Nat.toDigitsCore 10 fuel n ds = digitsOf n ++ ds := by
  intro fuel
  induction fuel with
  | zero => omega
  | succ f ih =>
    intro _ n ds hn
    by_cases hdiv : n / 10 = 0
    · have hlt : n < 10 := by omega
      simp only [Nat.toDigitsCore, hdiv, if_pos]
      rw [digitsOf]
      rw [dif_pos hlt, Nat.mod_eq_of_lt hlt]
      rfl
    · have h10 : 10 ≤ n := by omega
      have hf : 0 < f := by
        by_contra hf0
        have hfz : f = 0 := by omega
        subst hfz
        simp only [pow_succ, pow_zero, one_mul] at hn
        omega
      have hdivlt : n / 10 < 10 ^ f := by
        have hp : (10 : Nat) ^ (f + 1) = 10 ^ f * 10 := by rw [pow_succ]
        rw [hp] at hn
        omega
      simp only [Nat.toDigitsCore, hdiv, if_neg, if_false]
      rw [ih hf (n / 10) _ hdivlt]
      rw [show digitsOf n = digitsOf (n / 10) ++ [Nat.digitChar (n % 10)] from by
        rw [digitsOf]; rw [dif_neg (by omega)]]
      simp [List.append_assoc]

theorem repr_data (n : Nat) : (Nat.repr n).data = digitsOf n := by
  have h1 : n < 10 ^ (n + 1) := by
    calc n < 2 ^ n := Nat.lt_two_pow n
    _ ≤ 10 ^ n := Nat.pow_le_pow_left (by omega) n
    _ ≤ 10 ^ (n + 1) := Nat.pow_le_pow_right (by omega) (by omega)
  have h2 := toDigitsCore_eq_digitsOf (n + 1) (by omega) n [] h1
  have hr : Nat.repr n = (Nat.toDigitsCore 10 (n + 1) n []).asString := rfl
  rw [hr, h2, List.append_nil]
  rfl

theorem natRepr_inj {m n : Nat} (h : Nat.repr m = Nat.repr n) : m = n := by
  have hd : digitsOf m = digitsOf n := by
    rw [← repr_data, ← repr_data, h]
  calc m = valOf (digitsOf m) := (valOf_digitsOf m).symm
  _ = valOf (digitsOf n) := by rw [hd]
  _ = n := valOf_digitsOf n

theorem digitRun_cancel : ∀ (u v a b : List Char),
    (∀ c ∈ u, c.isDigit = true) → (∀ c ∈ v, c.isDigit = true) →
    u ++ '-' :: a = v ++ '-' :: b → u = v := by
  intro u
  induction u with
  | nil =>
    intro v a b _ hv h
    cases v with
    | nil => rfl
    | cons d v' =>
      exfalso
      simp only [List.nil_append, List.cons_append] at h
      injection h with h1 h2
      have hd : d.isDigit = true := hv d (List.mem_cons_self d v')
      rw [← h1] at hd
      exact absurd hd (by decide)
  | cons cu u' ih =>
    intro v a b hu hv h
    cases v with
    | nil =>
      exfalso
      simp only [List.nil_append, List.cons_append] at h
      injection h with h1 h2
      have hd : cu.isDigit = true := hu cu (List.mem_cons_self cu u')
      rw [h1] at hd
      exact absurd hd (by decide)
    | cons cv v' =>
      simp only [List.cons_append] at h
      injection h with h1 h2
      rw [h1, ih v' a b (fun c hc => hu c (List.mem_cons_of_mem _ hc))
        (fun c hc => hv c (List.mem_cons_of_mem _ hc)) h2]

theorem concat_digits_cancel (x y d1 d2 : List Char)
    (h1 : ∀ c ∈ d1, c.isDigit = true) (h2 : ∀ c ∈ d2, c.isDigit = true)
    (h : x ++ '-' :: d1 = y ++ '-' :: d2) : d1 = d2 := by
  have hrev : d1.reverse ++ '-' :: x.reverse = d2.reverse ++ '-' :: y.reverse := by
    have hcg := congrArg List.reverse h
    simpa [List.reverse_append, List.reverse_cons, List.append_assoc,
      List.singleton_append] using hcg
  have hres := digitRun_cancel d1.reverse d2.reverse x.reverse y.reverse
    (fun c hc => h1 c (List.mem_reverse.mp hc))
    (fun c hc => h2 c (List.mem_reverse.mp hc)) hrev
  exact List.reverse_inj.mp hres

/-! ### The archiver stack (src/src/FileUtil.js lines 39-45, 61-189) -/

/-- The temporary-file base name `` `.temp-${this.archiveCntr}` `` of
line 83. -/
def tempName (cntr : Nat) : String := ".temp-" ++ Nat.repr cntr

theorem append_tempName_inj (a b : String) (n1 n2 : Nat)
    (h : a ++ tempName n1 = b ++ tempName n2) : n1 = n2 := by
  have hdata := congrArg String.data h
  have hsplit : ∀ (s : String) (n : Nat),
      (s ++ tempName n).data = (s.data ++ ['.', 't', 'e', 'm', 'p']) ++ '-' :: (Nat.repr n).data := by
    intro s n
    rw [tempName, String.data_append, String.data_append]
    rw [show (".temp-").data = ['.', 't', 'e', 'm', 'p', '-'] from rfl]
    simp [List.append_assoc]
  rw [hsplit, hsplit] at hdata
  have hd1 : ∀ c ∈ (Nat.repr n1).data, c.isDigit = true := by
    intro c hc
    rw [repr_data] at hc
    exact digitsOf_all_digit n1 c hc
  have hd2 : ∀ c ∈ (Nat.repr n2).data, c.isDigit = true := by
    intro c hc
    rw [repr_data] at hc
    exact digitsOf_all_digit n2 c hc
  have hD := concat_digits_cancel _ _ _ _ hd1 hd2 hdata
  exact natRepr_inj (String.ext hD)

theorem append_tempName_getLast (a : String) (n : Nat) :
    ∃ c, (a ++ tempName n).data.getLast? = some c ∧ c.isDigit = true := by
  have hne : (Nat.repr n).data ≠ [] := by
    rw [repr_data]
    exact digitsOf_ne_nil n
  rcases hlast : (Nat.repr n).data.getLast? with _ | c
  · rw [List.getLast?_eq_none_iff] at hlast
    exact absurd hlast hne
  · refine ⟨c, ?_, ?_⟩
    · rw [String.data_append, tempName, String.data_append, List.getLast?_append,
        List.getLast?_append, hlast]
      rfl
    · have hmem : c ∈ (Nat.repr n).data := by
        rw [List.getLast?_eq_getElem?] at hlast
        exact List.getElem?_mem hlast
      rw [repr_data] at hmem
      exact digitsOf_all_digit n c hmem

theorem destPath_getLast (q fmt : String) (hf : fmt = "tar.gz" ∨ fmt = "zip") :
    ∃ c, (q ++ "." ++ fmt).data.getLast? = some c ∧ c.isDigit = false := by
  rcases hf with h | h <;> subst h
  · refine ⟨'z', ?_, by decide⟩
    rw [String.data_append, List.getLast?_append]
    have hz : (String.data "tar.gz").getLast? = some 'z' := by decide
    rw [hz]
    rfl
  · refine ⟨'p', ?_, by decide⟩
    rw [String.data_append, List.getLast?_append]
    have hz : (String.data "zip").getLast? = some 'p' := by decide
    rw [hz]
    rfl

theorem append_tempName_ne_dest (a q fmt : String) (n : Nat)
    (hf : fmt = "tar.gz" ∨ fmt = "zip") : a ++ tempName n ≠ q ++ "." ++ fmt := by
  intro heq
  obtain ⟨c, hc, hdig⟩ := append_tempName_getLast a n
  obtain ⟨c', hc', hnd⟩ := destPath_getLast q fmt hf
  rw [heq, hc'] at hc
  injection hc with hcc
  rw [← hcc] at hdig
  rw [hdig] at hnd
  exact absurd hnd (by decide)

/-- A promise registered in a parent's `childPromises` (lines 148-158): when
the child's output stream closes, it resolves with the child's temporary
`resolvedDest` and logical `destPath`.  Both values are captured at
registration time; the same pair is what `Promise.all` later delivers, so
this structure also serves as the resolved result type. -/
structure PendingChild where
  resolvedDest : String
  destPath : String
deriving DecidableEq

/-- One entry of `this.archiverStack` (lines 114-122).  The `archive` handle
and `stream` are external objects; their lifecycle events appear as effects
and as the `PendingChild` promises. -/
structure ArchiveInstance where
  destPath : String
  resolvedDest : String
  addToParent : Bool
  childPromises : List PendingChild
deriving DecidableEq

/-- The mutable state of a `FileUtil` instance (constructor, lines 26-47):
options, the archiver stack (head of the list = top of the JS array), and
the monotonically increasing temporary-archive counter. -/
structure FUState where
  options : FUOptions
  archiverStack : List ArchiveInstance
  archiveCntr : Nat
deriving DecidableEq

/-- Line 74-75: resolve `destPath` against the configured `relativePath`
when one is set. -/
def resolveDest (env : PathEnv) (relativePath : Option String) (destPath : String) : String :=
  match relativePath with
  | some rp => env.resolve2 rp destPath
  | none => env.resolve1 destPath

/-- `FileUtil.archiveCreate(destPath, addToParent)` (lines 61-125): append the
compress-format extension, resolve the destination, redirect it to a
`` `${dirName}${path.sep}.temp-${this.archiveCntr++}` `` temporary file when
the stack is non-empty and `addToParent` is set (lines 79-84), then — for a
known compression format — push a new instance with empty `childPromises`.
An unknown format throws (line 99) AFTER the counter was already bumped, so
the error case keeps the updated counter and leaves the stack alone. -/
def archiveCreate (env : PathEnv) (s : FUState) (destPath : String) (addToParent : Bool) :
    FUState × Except String ArchiveInstance :=
  let fmt := s.options.compressFormat
  let destPath' := destPath ++ "." ++ fmt
  let resolved := resolveDest env s.options.relativePath destPath'
  let isChild := decide (0 < s.archiverStack.length) && addToParent
  let resolved' := if isChild then env.dirname resolved ++ env.sep ++ tempName s.archiveCntr
    else resolved
  let cntr' := if isChild then s.archiveCntr + 1 else s.archiveCntr
  if fmt = "tar.gz" ∨ fmt = "zip" then
    let inst : ArchiveInstance :=
      { destPath := destPath', resolvedDest := resolved', addToParent := addToParent,
        childPromises := [] }
    ({ s with archiverStack := inst :: s.archiverStack, archiveCntr := cntr' }, Except.ok inst)
  else
    ({ s with archiveCntr := cntr' },
      Except.error ("Unknown compression format: " ++ fmt))

/-- Filesystem/archiver effects run by `archiveFinalize`'s `Promise.all`
continuation (lines 167-181). -/
inductive ArchiveEffect where
  | appendFile (src : String) (name : String)
  | removeFile (p : String)
  | finalizeArchive
deriving DecidableEq

/-- The child loop of the continuation (lines 170-177): append each child's
temporary archive under its recorded logical `destPath`, then delete the
temporary file. -/
def appendChildren : List PendingChild → List ArchiveEffect
  | [] => []
  | r :: rest =>
    ArchiveEffect.appendFile r.resolvedDest r.destPath
      :: ArchiveEffect.removeFile r.resolvedDest :: appendChildren rest

/-- Effects the continuation runs once every awaited child promise has
resolved (lines 167-181): the child loop, then the popped instance's own
`archive.finalize()` (line 180). -/
def finalizeRun (results : List PendingChild) : List ArchiveEffect :=
  appendChildren results ++ [ArchiveEffect.finalizeArchive]

/-- The completion returned by `archiveFinalize`: either the already-resolved
no-op promise of the empty-stack branch (line 188), or a pending completion
that waits on the popped instance's `childPromises` (line 167) and then runs
`finalizeRun` on their results. -/
inductive FinalizeOutcome where
  | resolvedNoop
  | awaiting (awaited : List PendingChild)
deriving DecidableEq

/-- Return value of `archiveFinalize`: the updated instance state, the
`s_LOG` messages issued synchronously, and the completion. -/
structure FinalizeReturn where
  state : FUState
  logs : List String
  outcome : FinalizeOutcome
deriving DecidableEq

/-- `FileUtil.archiveFinalize(silent)` (lines 134-189): pop the top instance;
with none, log `"No active archive to finalize."` and return an
already-resolved promise, touching nothing (lines 183-188).  Otherwise, when
the popped instance has `addToParent` and a parent exists, register with the
parent a promise that resolves with the popped instance's
`{resolvedDest, destPath}` on stream close (lines 146-159); then await all of
the popped instance's own `childPromises` and run `finalizeRun` on the
results (lines 167-181). -/
def archiveFinalize (s : FUState) (silent : Bool) : FinalizeReturn :=
  match s.archiverStack with
  | [] =>
    { state := s, logs := ["No active archive to finalize."],
      outcome := FinalizeOutcome.resolvedNoop }
  | inst :: rest =>
    let rest' :=
      match rest with
      | parent :: more =>
        if inst.addToParent then
          { parent with childPromises := parent.childPromises
              ++ [{ resolvedDest := inst.resolvedDest, destPath := inst.destPath }] } :: more
        else parent :: more
      | [] => []
    { state := { s with archiverStack := rest' },
      logs := if silent then [] else ["finalizing archive: " ++ inst.destPath],
      outcome := FinalizeOutcome.awaiting inst.childPromises }

theorem appendChildren_length (results : List PendingChild) :
    (appendChildren results).length = 2 * results.length := by
  induction results with
  | nil => rfl
  | cons r rest ih => simp [appendChildren, ih]; omega

theorem finalizeRun_length (results : List PendingChild) :
    (finalizeRun results).length = 2 * results.length + 1 := by
  simp [finalizeRun, appendChildren_length]

theorem finalizeRun_last (results : List PendingChild) :
    (finalizeRun results)[2 * results.length]? = some ArchiveEffect.finalizeArchive := by
  induction results with
  | nil => rfl
  | cons r rest ih =>
    have h2 : 2 * (rest.length + 1) = 2 * rest.length + 1 + 1 := by omega
    simp only [finalizeRun, appendChildren, List.length_cons, List.cons_append, h2,
      List.getElem?_cons_succ]
    exact ih

theorem finalizeRun_getElem (results : List PendingChild) :
    ∀ (i : Nat) (r : PendingChild), results[i]? = some r →
      (finalizeRun results)[2 * i]? = some (ArchiveEffect.appendFile r.resolvedDest r.destPath)
      ∧ (finalizeRun results)[2 * i + 1]? = some (ArchiveEffect.removeFile r.resolvedDest) := by
  induction results with
  | nil =>
    intro i r h
    simp at h
  | cons x rest ih =>
    intro i r h
    cases i with
    | zero =>
      rw [List.getElem?_cons_zero] at h
      injection h with h
      subst h
      refine ⟨?_, ?_⟩ <;> simp [finalizeRun, appendChildren]
    | succ j =>
      rw [List.getElem?_cons_succ] at h
      have hj := ih j r h
      have h2 : 2 * (j + 1) = (2 * j) + 1 + 1 := by omega
      have h3 : 2 * (j + 1) + 1 = ((2 * j) + 1) + 1 + 1 := by omega
      constructor
      · simp only [finalizeRun, appendChildren, List.cons_append, h2, List.getElem?_cons_succ]
        exact hj.1
      · simp only [finalizeRun, appendChildren, List.cons_append, h3, List.getElem?_cons_succ]
        exact hj.2

/-- C1: for every archive session popped by `archiveFinalize`, the awaited
completions are exactly the `childPromises` registered on that session before
the call, and the continuation that runs once they have all resolved appends
each child's temporary file into the popped session's archive under the
child's recorded logical `destPath` (at effect position `2i`), deletes the
temporary file right after (position `2i + 1`), and only then — at the final
position `2·|results|`, after every append — runs the popped session's own
handle-finalize. -/
theorem archiveFinalize_child_ordering (s : FUState) (silent : Bool)
    (inst : ArchiveInstance) (rest : List ArchiveInstance)
    (h : s.archiverStack = inst :: rest) :
    (archiveFinalize s silent).outcome = FinalizeOutcome.awaiting inst.childPromises
    ∧ ∀ results : List PendingChild,
        (finalizeRun results).length = 2 * results.length + 1
        ∧ (finalizeRun results)[2 * results.length]? = some ArchiveEffect.finalizeArchive
        ∧ ∀ (i : Nat) (r : PendingChild), results[i]? = some r →
            (finalizeRun results)[2 * i]?
              = some (ArchiveEffect.appendFile r.resolvedDest r.destPath)
            ∧ (finalizeRun results)[2 * i + 1]?
              = some (ArchiveEffect.removeFile r.resolvedDest) := by
  constructor
  · simp [archiveFinalize, h]
  · intro results
    exact ⟨finalizeRun_length results, finalizeRun_last results, finalizeRun_getElem results⟩

/-- Concrete data for the finalize-ordering witness: a pending child. -/
def childW : PendingChild := { resolvedDest := "/x/.temp-1", destPath := "b.tar.gz" }

/-- Concrete data for the finalize-ordering witness: the top instance. -/
def instW : ArchiveInstance :=
  { destPath := "a.tar.gz", resolvedDest := "/x/.temp-0", addToParent := true,
    childPromises := [childW] }

/-- Concrete data for the finalize-ordering witness: the options. -/
def optsW : FUOptions :=
  { compressFormat := "tar.gz", lockRelative := false, logEvent := "log:debug",
    relativePath := none }

/-- Concrete data for the finalize-ordering witness: the state. -/
def stateW : FUState := { options := optsW, archiverStack := [instW], archiveCntr := 2 }

/-- Witness for `archiveFinalize_child_ordering` at a concrete state. -/
theorem archiveFinalize_child_ordering_witness :
    (archiveFinalize stateW false).outcome = FinalizeOutcome.awaiting [childW]
    ∧ finalizeRun [childW]
      = [ArchiveEffect.appendFile "/x/.temp-1" "b.tar.gz",
         ArchiveEffect.removeFile "/x/.temp-1", ArchiveEffect.finalizeArchive] := by
  have h := archiveFinalize_child_ordering stateW false instW [] (by decide)
  exact ⟨h.1, rfl⟩

/-- C3: with the archive session stack empty, `archiveFinalize` does not
throw, performs no archive or filesystem mutation (the returned state is the
input state, options included; the completion is the already-resolved no-op
with no pending effects), reports the absence informationally via the
`"No active archive to finalize."` log message, and a second
`archiveFinalize` on the resulting state — including the state reached by a
finalize that just emptied the stack — behaves as the same no-op. -/
theorem archiveFinalize_empty_eq (u : FUState) (x : Bool) (h : u.archiverStack = []) :
    archiveFinalize u x
      = { state := u, logs := ["No active archive to finalize."],
          outcome := FinalizeOutcome.resolvedNoop } := by
  rcases u with ⟨o, st, c⟩
  simp only at h
  subst h
  rfl

theorem archiveFinalize_empty_noop (s : FUState) (silent silent2 : Bool) :
    (s.archiverStack = [] →
      archiveFinalize s silent
        = { state := s, logs := ["No active archive to finalize."],
            outcome := FinalizeOutcome.resolvedNoop }
      ∧ archiveFinalize (archiveFinalize s silent).state silent2
        = { state := s, logs := ["No active archive to finalize."],
            outcome := FinalizeOutcome.resolvedNoop })
    ∧ ∀ inst : ArchiveInstance, s.archiverStack = [inst] →
      (archiveFinalize s silent).state.archiverStack = []
      ∧ archiveFinalize (archiveFinalize s silent).state silent2
          = { state := (archiveFinalize s silent).state,
              logs := ["No active archive to finalize."],
              outcome := FinalizeOutcome.resolvedNoop } := by
  constructor
  · intro h
    have h1 := archiveFinalize_empty_eq s silent h
    refine ⟨h1, ?_⟩
    rw [h1]
    exact archiveFinalize_empty_eq s silent2 h
  · intro inst h
    have h1 : (archiveFinalize s silent).state.archiverStack = [] := by
      simp [archiveFinalize, h]
    exact ⟨h1, archiveFinalize_empty_eq _ silent2 h1⟩

/-- Witness for `archiveFinalize_empty_noop` at a concrete state. -/
theorem archiveFinalize_empty_noop_witness :
    archiveFinalize { options := optsW, archiverStack := [], archiveCntr := 0 } false
      = { state := { options := optsW, archiverStack := [], archiveCntr := 0 },
          logs := ["No active archive to finalize."],
          outcome := FinalizeOutcome.resolvedNoop }
    ∧ (archiveFinalize { options := optsW, archiverStack := [instW], archiveCntr := 0 }
        true).state.archiverStack = [] := by
  constructor
  · exact ((archiveFinalize_empty_noop
      { options := optsW, archiverStack := [], archiveCntr := 0 } false false).1 rfl).1
  · exact ((archiveFinalize_empty_noop
      { options := optsW, archiverStack := [instW], archiveCntr := 0 } true true).2
      instW rfl).1

/-- A partial options object passed to `setOptions` (lines 522-540): each
field is present (`some`) with a value of the right JS type, or absent. -/
structure OptionsPatch where
  relativePath : Option String := none
  lockRelative : Option Bool := none
  compressFormat : Option String := none
  logEvent : Option String := none
deriving DecidableEq

/-- `FileUtil.setOptions(options)` (lines 522-540): `relativePath` and
`lockRelative` only update while `lockRelative` is still false;
`compressFormat` and `logEvent` update whenever present with the right type
(the `eventbus` assignment is not modelled). -/
def setOptions (s : FUState) (p : OptionsPatch) : FUState :=
  let o0 := s.options
  let o1 := match p.relativePath with
    | some rp => if !o0.lockRelative then { o0 with relativePath := some rp } else o0
    | none => o0
  let o2 := match p.lockRelative with
    | some lr => if !o1.lockRelative then { o1 with lockRelative := lr } else o1
    | none => o1
  let o3 := match p.compressFormat with
    | some cf => { o2 with compressFormat := cf }
    | none => o2
  let o4 := match p.logEvent with
    | some le => { o3 with logEvent := le }
    | none => o3
  { s with options := o4 }

/-- One mutating call on a `FileUtil` instance, for properties quantified
over whole call sequences.  (`writeFile`/`copy` do not touch the stack, the
counter or the options and are omitted.) -/
inductive FUOp where
  | create (destPath : String) (addToParent : Bool)
  | finalizeOp (silent : Bool)
  | setOpts (p : OptionsPatch)
deriving DecidableEq

/-- The state after one call. -/
def stepOp (env : PathEnv) (s : FUState) : FUOp → FUState
  | FUOp.create d a => (archiveCreate env s d a).1
  | FUOp.finalizeOp silent => (archiveFinalize s silent).state
  | FUOp.setOpts p => setOptions s p

/-- The instances created along a call sequence by `archiveCreate` calls that
took the temporary-redirect branch of lines 79-84 (stack non-empty and
`addToParent`). -/
def tempsCreated (env : PathEnv) (s : FUState) : List FUOp → List ArchiveInstance
  | [] => []
  | op :: ops =>
    let rest := tempsCreated env (stepOp env s op) ops
    match op with
    | FUOp.create d a =>
      if decide (0 < s.archiverStack.length) && a then
        match (archiveCreate env s d a).2 with
        | Except.ok inst => inst :: rest
        | Except.error _ => rest
      else rest
    | _ => rest

theorem archiveCreate_cntr (env : PathEnv) (s : FUState) (d : String) (a : Bool) :
    (archiveCreate env s d a).1.archiveCntr
      = if decide (0 < s.archiverStack.length) && a then s.archiveCntr + 1
        else s.archiveCntr := by
  simp only [archiveCreate]
  split <;> rfl

theorem archiveCreate_ok_inst (env : PathEnv) (s : FUState) (d : String) (a : Bool)
    (inst : ArchiveInstance) (h : (archiveCreate env s d a).2 = Except.ok inst) :
    inst.destPath = d ++ "." ++ s.options.compressFormat
    ∧ (s.options.compressFormat = "tar.gz" ∨ s.options.compressFormat = "zip")
    ∧ inst.addToParent = a ∧ inst.childPromises = []
    ∧ inst.resolvedDest
      = (if decide (0 < s.archiverStack.length) && a then
          env.dirname (resolveDest env s.options.relativePath
            (d ++ "." ++ s.options.compressFormat)) ++ env.sep ++ tempName s.archiveCntr
        else resolveDest env s.options.relativePath
          (d ++ "." ++ s.options.compressFormat)) := by
  simp only [archiveCreate] at h
  split at h
  · rename_i hfmt
    injection h with h
    subst h
    refine ⟨rfl, hfmt, rfl, rfl, rfl⟩
  · simp at h

theorem stepOp_cntr_le (env : PathEnv) (s : FUState) (op : FUOp) :
    s.archiveCntr ≤ (stepOp env s op).archiveCntr := by
  cases op with
  | create d a =>
    simp only [stepOp]
    rw [archiveCreate_cntr]
    split <;> omega
  | finalizeOp silent =>
    rcases s with ⟨o, st, c⟩
    cases st with
    | nil => simp [stepOp, archiveFinalize]
    | cons i r => simp [stepOp, archiveFinalize]
  | setOpts p => simp [stepOp, setOptions]

theorem tempsCreated_shape (env : PathEnv) : ∀ (ops : List FUOp) (s : FUState),
    ∀ inst ∈ tempsCreated env s ops,
      (∃ (dir : String) (n : Nat),
        inst.resolvedDest = dir ++ tempName n ∧ s.archiveCntr ≤ n)
      ∧ ∃ (q fmt : String), inst.destPath = q ++ "." ++ fmt
          ∧ (fmt = "tar.gz" ∨ fmt = "zip") := by
  intro ops
  induction ops with
  | nil =>
    intro s inst h
    simp [tempsCreated] at h
  | cons op rest ih =>
    intro s inst h
    have hle := stepOp_cntr_le env s op
    have step : ∀ hm : inst ∈ tempsCreated env (stepOp env s op) rest,
        (∃ (dir : String) (n : Nat),
          inst.resolvedDest = dir ++ tempName n ∧ s.archiveCntr ≤ n)
        ∧ ∃ (q fmt : String), inst.destPath = q ++ "." ++ fmt
            ∧ (fmt = "tar.gz" ∨ fmt = "zip") := by
      intro hm
      obtain ⟨⟨dir, n, hrd, hn⟩, hq⟩ := ih (stepOp env s op) inst hm
      exact ⟨⟨dir, n, hrd, le_trans hle hn⟩, hq⟩
    cases op with
    | create d a =>
      simp only [tempsCreated] at h
      by_cases hcond : (decide (0 < s.archiverStack.length) && a) = true
      · rw [if_pos hcond] at h
        cases hok : (archiveCreate env s d a).2 with
        | ok created =>
          rw [hok] at h
          rcases List.mem_cons.mp h with heq | hmem
          · obtain ⟨hdp, hfmt, _, _, hrd⟩ := archiveCreate_ok_inst env s d a created hok
            rw [if_pos hcond] at hrd
            rw [heq]
            exact ⟨⟨_, s.archiveCntr, hrd, le_refl _⟩,
              ⟨d, s.options.compressFormat, hdp, hfmt⟩⟩
          · exact step hmem
        | error e =>
          rw [hok] at h
          exact step h
      · rw [if_neg hcond] at h
        exact step h
    | finalizeOp x =>
      simp only [tempsCreated] at h
      exact step h
    | setOpts p =>
      simp only [tempsCreated] at h
      exact step h

theorem tempsCreated_pairwise (env : PathEnv) : ∀ (ops : List FUOp) (s : FUState),
    List.Pairwise (fun i1 i2 : ArchiveInstance => i1.resolvedDest ≠ i2.resolvedDest)
      (tempsCreated env s ops) := by
  intro ops
  induction ops with
  | nil =>
    intro s
    simp [tempsCreated]
  | cons op rest ih =>
    intro s
    cases op with
    | create d a =>
      simp only [tempsCreated]
      by_cases hcond : (decide (0 < s.archiverStack.length) && a) = true
      · rw [if_pos hcond]
        cases hok : (archiveCreate env s d a).2 with
        | ok created =>
          refine List.pairwise_cons.mpr ⟨?_, ih _⟩
          intro b hb
          obtain ⟨⟨db, nb, hbr, hble⟩, _⟩ := tempsCreated_shape env rest _ b hb
          obtain ⟨_, _, _, _, hrd⟩ := archiveCreate_ok_inst env s d a created hok
          rw [if_pos hcond] at hrd
          rw [hrd, hbr]
          intro heq
          have hn := append_tempName_inj _ _ _ _ heq
          have hc : (archiveCreate env s d a).1.archiveCntr = s.archiveCntr + 1 := by
            rw [archiveCreate_cntr, if_pos hcond]
          simp only [stepOp] at hble
          rw [hc] at hble
          omega
        | error e => exact ih _
      · rw [if_neg hcond]
        exact ih _
    | finalizeOp x =>
      simp only [tempsCreated]
      exact ih _
    | setOpts p =>
      simp only [tempsCreated]
      exact ih _

/-- C2: (1) an `archiveCreate` call made with the session stack non-empty,
`addToParent` true and a known compression format redirects the new session's
resolved output to `` `${dirName}${path.sep}.temp-${cntr}` `` — a temporary
file named with the `.temp-<counter>` convention in the directory of the
originally resolved destination — using the instance's current counter, and
increments the counter; (2) over every call sequence on the same `FileUtil`
instance, the monotonically increasing counter makes the temporary paths of
all such sessions pairwise distinct; and (3) each such temporary path is
distinct from that session's final logical destination path. -/
theorem archiveCreate_temp_unique :
    (∀ (env : PathEnv) (s : FUState) (d : String),
      0 < s.archiverStack.length →
      (s.options.compressFormat = "tar.gz" ∨ s.options.compressFormat = "zip") →
      (archiveCreate env s d true).1.archiveCntr = s.archiveCntr + 1
      ∧ ∃ inst : ArchiveInstance,
          (archiveCreate env s d true).2 = Except.ok inst
          ∧ inst.destPath = d ++ "." ++ s.options.compressFormat
          ∧ inst.resolvedDest
            = env.dirname (resolveDest env s.options.relativePath
                (d ++ "." ++ s.options.compressFormat)) ++ env.sep ++ tempName s.archiveCntr)
    ∧ (∀ (env : PathEnv) (s : FUState) (ops : List FUOp),
        List.Pairwise (fun i1 i2 : ArchiveInstance => i1.resolvedDest ≠ i2.resolvedDest)
          (tempsCreated env s ops))
    ∧ (∀ (env : PathEnv) (s : FUState) (ops : List FUOp),
        ∀ inst ∈ tempsCreated env s ops, inst.resolvedDest ≠ inst.destPath) := by
  refine ⟨?_, fun env s ops => tempsCreated_pairwise env ops s, ?_⟩
  · intro env s d hstack hfmt
    have hcond : (decide (0 < s.archiverStack.length) && true) = true := by
      simp [hstack]
    constructor
    · rw [archiveCreate_cntr, if_pos hcond]
    · cases hok : (archiveCreate env s d true).2 with
      | ok inst =>
        obtain ⟨hdp, _, _, _, hrd⟩ := archiveCreate_ok_inst env s d true inst hok
        rw [if_pos hcond] at hrd
        exact ⟨inst, rfl, hdp, hrd⟩
      | error e =>
        exfalso
        simp only [archiveCreate] at hok
        rw [if_pos hfmt] at hok
        simp at hok
  · intro env s ops inst hmem
    obtain ⟨⟨dir, n, hrd, _⟩, ⟨q, fmt, hdp, hfmt⟩⟩ := tempsCreated_shape env ops s inst hmem
    rw [hrd, hdp]
    exact append_tempName_ne_dest dir q fmt n hfmt

/-- Concrete environment for the archiveCreate witness. -/
def envW : PathEnv :=
  { resolve1 := fun p => "/base/" ++ p, resolve2 := fun b p => "/" ++ b ++ "/" ++ p,
    dirname := fun _ => "/base", sep := "/", cwd := "/base" }

/-- Witness for `archiveCreate_temp_unique` at a concrete input. -/
theorem archiveCreate_temp_unique_witness :
    (archiveCreate envW stateW "arch" true).1.archiveCntr = 3
    ∧ ∃ inst : ArchiveInstance,
        (archiveCreate envW stateW "arch" true).2 = Except.ok inst
        ∧ inst.resolvedDest = "/base/.temp-2" := by
  have h := archiveCreate_temp_unique.1 envW stateW "arch" (by decide) (Or.inl rfl)
  obtain ⟨hc, inst, hok, _, hrd⟩ := h
  refine ⟨hc, inst, hok, ?_⟩
  rw [hrd]
  decide

/-- Witness for `hydrateGlob_validation` at concrete inputs: an array with a
non-string element fails identically under two different filesystem
environments, and a plain string input passes validation. -/
theorem hydrateGlob_validation_witness :
    hydrateGlob (fun _ => false) (fun _ => []) (fun _ => false)
        (GlobsInput.arr [JSVal.str "a", JSVal.other])
      = hydrateGlob (fun _ => true) (fun g => [g]) (fun _ => true)
        (GlobsInput.arr [JSVal.str "a", JSVal.other])
    ∧ exceptOk (hydrateGlob (fun _ => false) (fun _ => []) (fun _ => false)
        (GlobsInput.str "ok")) = true := by
  constructor
  · exact (hydrateGlob_validation (GlobsInput.arr [JSVal.str "a", JSVal.other])
      (fun _ => false) (fun _ => []) (fun _ => false)).2 (by decide)
      (fun _ => true) (fun g => [g]) (fun _ => true)
  · have h := (hydrateGlob_validation (GlobsInput.str "ok") (fun _ => false) (fun _ => [])
      (fun _ => false)).1
    rw [h]
    rfl
